import Mathlib

/-!
# Verification of the img-duplicates duplicate-image finder

A shallow embedding of the core of the `img-duplicates` package:

* `src/utils.ts`: `isImageFile`, `px`, `binaryToHex`, `dhash`, `mapLimit`;
* the library entry point `findDuplicateImages` (duplicate grouping via a
  spatial index, group resolution and sorting).

External collaborators (the `sharp` image library, the filesystem, and the
`static-kdtree` spatial index) are modelled as follows:

* the filesystem and `sharp` are an abstract snapshot `FS`: existence and
  directory checks, directory listings, the decoded grayscale pixel buffer
  that `sharp` produces for a path at a given hash size, and image metadata;
* the `static-kdtree` k-nearest-neighbour query is modelled from the spec
  (see `knnModel`);
* JavaScript strings are modelled as Lean strings; the default
  `Array.prototype.sort()` comparison (UTF-16 code units) and the ordinal
  reading of `localeCompare` are modelled by `strLe` below.

Machine integers do not occur: all quantities are small non-negative counts
(pixel values, byte values, lengths), modelled as `Nat`.
-/

namespace ImgDup

/-! ## Strings: code-unit comparison, suffix test, basename, join -/

/-- Lexicographic comparison of character lists by code point, modelling the
default JavaScript string comparison used by `Array.prototype.sort()`. -/
def charListLe : List Char → List Char → Bool
  | [], _ => true
  | _ :: _, [] => false
  | a :: as, b :: bs =>
    if a.toNat < b.toNat then true
    else if b.toNat < a.toNat then false
    else charListLe as bs

/-- String comparison used for the two path sorts in `findDuplicateImages`
and, reading `localeCompare` ordinally as the spec does, for the filename
tie-break of the group sorter. -/
def strLe (a b : String) : Bool := charListLe a.data b.data

/-- The comparison relation fed to the sorting of path lists. -/
abbrev strR (a b : String) : Prop := strLe a b = true

/-- Embeds `String.prototype.endsWith` as used by `isImageFile`. -/
def strEndsWith (s t : String) : Bool :=
  decide (t.data.length ≤ s.data.length) &&
    (s.data.drop (s.data.length - t.data.length) == t.data)

/-- Embeds `path.basename` for the forward-slash paths of the model: the part
of the path after the last separator. -/
def basename (s : String) : String :=
  ⟨(s.data.reverse.takeWhile (fun c => c ≠ '/')).reverse⟩

/-- Embeds `path.join` for the model's forward-slash paths. -/
def pathJoin (dir f : String) : String := dir ++ "/" ++ f

/-- Embeds `isImageFile` from `src/utils.ts`: extension whitelist. -/
def isImageFile (path : String) : Bool :=
  strEndsWith path ".png" ||
  strEndsWith path ".jpg" ||
  strEndsWith path ".jpeg" ||
  strEndsWith path ".webp" ||
  strEndsWith path ".gif" ||
  strEndsWith path ".avif" ||
  strEndsWith path ".tiff" ||
  strEndsWith path ".tif" ||
  strEndsWith path ".svg"

/-! ## The difference hash (`px`, `binaryToHex`, `dhash` from `src/utils.ts`)

`dhash` in the source opens the image with `sharp` and then runs a pure
computation over the decoded buffer.  The decoded buffer is supplied by the
`FS` model below; the pure part is embedded here, with the `assert` inside
`px` modelled by `Option` (`none` = the assertion throws). -/

/-- Embeds `px`: read the pixel at column `x`, row `y` of a row-major buffer
of width `width`.  `assert(pixel < pixels.length)` becomes the `none`
branch. -/
def px (pixels : List Nat) (width x y : Nat) : Option Nat :=
  let pixel := width * y + x
  if pixel < pixels.length then some (pixels.getD pixel 0) else none

/-- Turn a list of optional values into an optional list; `none` as soon as
one element is `none` (an exception aborting the loop). -/
def optList {α : Type} : List (Option α) → Option (List α)
  | [] => some []
  | none :: _ => none
  | some a :: rest => (optList rest).map (a :: ·)

/-- One comparison of the `dhash` double loop: the bit for `row`, `col` is
set exactly when the left pixel is strictly darker than its right
neighbour. -/
def dhashBit (pixels : List Nat) (width row col : Nat) : Option Bool :=
  match px pixels width col row, px pixels width (col + 1) row with
  | some left, some right => some (decide (left < right))
  | _, _ => none

/-- The bit string built by `dhash`'s double loop (`difference` in the
source): rows `0 ≤ row < hashSize` outside, columns `0 ≤ col < hashSize`
inside, over a buffer of width `hashSize + 1`. -/
def dhashBits (pixels : List Nat) (hashSize : Nat) : Option (List Bool) :=
  optList ((List.range hashSize).flatMap fun row =>
    (List.range hashSize).map fun col => dhashBit pixels (hashSize + 1) row col)

/-- Value of a bit-string chunk read as a binary numeral
(`parseInt(bytes, 2)` on a slice of the `difference` string). -/
def nibbleVal (bits : List Bool) : Nat :=
  bits.foldl (fun acc b => 2 * acc + (if b then 1 else 0)) 0

/-- The hex digits produced by the loop of `binaryToHex`: slices of (at
most) four bits, each read as a binary numeral.  Every slice value is below
16, so `decimal.toString(16)` contributes exactly one hex character. -/
def hexDigits : List Bool → List Nat
  | [] => []
  | [a] => [nibbleVal [a]]
  | [a, b] => [nibbleVal [a, b]]
  | [a, b, c] => [nibbleVal [a, b, c]]
  | a :: b :: c :: d :: rest => nibbleVal [a, b, c, d] :: hexDigits rest

/-- Embeds `Buffer.from(output, "hex")`: consecutive pairs of hex digits
become bytes; a trailing unpaired digit is dropped. -/
def hexPairsToBytes : List Nat → List Nat
  | d1 :: d2 :: rest => (16 * d1 + d2) :: hexPairsToBytes rest
  | _ => []

/-- Embeds `binaryToHex` from `src/utils.ts` on the bit string. -/
def binaryToHex (s : List Bool) : List Nat := hexPairsToBytes (hexDigits s)

/-- The eight bits of a byte, most significant first (used to state what a
byte sequence encodes). -/
def byteToBits (b : Nat) : List Bool :=
  [decide (b / 128 % 2 = 1), decide (b / 64 % 2 = 1), decide (b / 32 % 2 = 1),
   decide (b / 16 % 2 = 1), decide (b / 8 % 2 = 1), decide (b / 4 % 2 = 1),
   decide (b / 2 % 2 = 1), decide (b % 2 = 1)]

/-- The bit sequence a byte list encodes. -/
def bytesToBits (bs : List Nat) : List Bool := bs.flatMap byteToBits

/-- The pure part of `dhash` from `src/utils.ts`, applied to the decoded
grayscale buffer: build the difference bit string, then pack it with
`binaryToHex`. -/
def dhash (pixels : List Nat) (hashSize : Nat) : Option (List Nat) :=
  (dhashBits pixels hashSize).map binaryToHex

/-! ## The filesystem / image-library snapshot -/

/-- One immutable snapshot of the external collaborators of
`findDuplicateImages`:

* `zexists` embeds `pathExists` (an `fs.access` probe);
* `isDir` embeds `isFolder`;
* `readdir` embeds `fs.readdir`, `none` meaning the listing throws;
* `pixels path n` is the raw grayscale buffer `sharp` decodes for `path`
  resized to width `n + 1`, height `n`; `none` meaning decoding throws;
* `meta` embeds `sharp(path).metadata()`, already collapsed through the
  `metadata.width || 0` / `metadata.height || 0` defaults of the source;
  `none` meaning the metadata read throws. -/
structure FS where
  zexists : String → Bool
  isDir : String → Bool
  readdir : String → Option (List String)
  pixels : String → Nat → Option (List Nat)
  meta : String → Option (Nat × Nat)

/-- An entry of an output group: `{ path, width, height }`. -/
structure Img where
  path : String
  width : Nat
  height : Nat
deriving DecidableEq

/-- The iteratee passed to `mapLimit` by `findDuplicateImages`: run `dhash`
on the file (decode with `sharp`, then the pure hash), spreading the result
buffer into a number array.  A decode failure or a failed `px` assertion
rejects. -/
def hashFile (fs : FS) (hashSize : Nat) (file : String) : Except String (List Nat) :=
  match fs.pixels file hashSize with
  | none => .error ("could not decode " ++ file)
  | some buf =>
    match dhash buf hashSize with
    | none => .error ("assertion failed hashing " ++ file)
    | some h => .ok h

/-- `Promise.all(batch.map(iteratee))`: every element is processed, the
results keep their order, and the first rejection (in list order) rejects
the whole batch. -/
def exceptMapAll {α β : Type} (f : α → Except String β) : List α → Except String (List β)
  | [] => .ok []
  | a :: rest =>
    match f a with
    | .error e => .error e
    | .ok b =>
      match exceptMapAll f rest with
      | .error e => .error e
      | .ok bs => .ok (b :: bs)

/-- Embeds the loop of `mapLimit` from `src/utils.ts`: slices of `limit`
items (`array.slice(i, i + limit)`) are awaited batch by batch and the
batch results appended in order.  The loop advances by `i += limit`, so it
is only productive for `limit ≥ 1` (the source would loop forever on
`limit = 0`); the recursion is driven by a fuel argument equal to the list
length, which the step count never exceeds when `limit ≥ 1`. -/
def mapLimitGo {α β : Type} (f : α → Except String β) (limit : Nat) :
    Nat → List α → Except String (List β)
  | _, [] => .ok []
  | 0, _ :: _ => .ok []
  | fuel + 1, a :: rest =>
    match exceptMapAll f (a :: rest.take (limit - 1)) with
    | .error e => .error e
    | .ok batch =>
      match mapLimitGo f limit fuel (rest.drop (limit - 1)) with
      | .error e => .error e
      | .ok tail => .ok (batch ++ tail)

/-- `mapLimit(array, limit, iteratee)` from `src/utils.ts`. -/
def mapLimit {α β : Type} (f : α → Except String β) (limit : Nat) (l : List α) :
    Except String (List β) :=
  mapLimitGo f limit l.length l

/-! ## The spatial index

`static-kdtree` is an external dependency; only its construction over the
complete hash list and its `knn` query are used. -/

/-- Squared Euclidean distance between two byte vectors, each byte one
coordinate (`|a - b|` is computed in `Nat` as `(a - b) + (b - a)`). -/
def sqDist (xs ys : List Nat) : Nat :=
  ((xs.zip ys).map fun p => (p.1 - p.2 + (p.2 - p.1)) * (p.1 - p.2 + (p.2 - p.1))).sum

/-- Modelled from the spec: the `static-kdtree` dependency is not part of
the repository, so `tree.knn(query, k, maxDistance)` is modelled from §4.2
of the spec — return the index positions of up to `k` points of the indexed
set whose distance to the query is at most `maxDistance`, ordered by
increasing distance, with the deterministic tie-break the spec asks
implementations to fix (ascending index, via a stable sort of the ascending
index list).  Distances are per-byte numeric (Euclidean), compared squared
to stay in `Nat`. -/
def knnModel (points : List (List Nat)) (query : List Nat) (k maxDist : Nat) : List Nat :=
  (List.insertionSort
    (fun i j => sqDist (points.getD i []) query ≤ sqDist (points.getD j []) query)
    ((List.range points.length).filter
      fun i => decide (sqDist (points.getD i []) query ≤ maxDist * maxDist))).take k

/-! ## The group assembler -/

/-- State of the grouping pass: the claimed index set (`duplicateIdxSet`)
and the groups found so far (as index lists; the source stores the mapped
paths, which are recovered below). -/
structure AState where
  claimed : List Nat
  groups : List (List Nat)

/-- One iteration of the grouping loop of `findDuplicateImages` for index
`i`: skip claimed indices, query the index for `maxDuplicates + 1`
neighbours within `maxDistance`, drop already-claimed results, keep the
group only if more than one index survives, truncate to `maxDuplicates`,
then record the group and claim its members. -/
def assembleStep (points : List (List Nat)) (maxDup maxDist : Nat) (s : AState) (i : Nat) :
    AState :=
  if i ∈ s.claimed then s
  else
    let dIdx := knnModel points (points.getD i []) (maxDup + 1) maxDist
    if 1 < dIdx.length then
      let filtered := dIdx.filter fun idx => decide (idx ∉ s.claimed)
      if 1 < filtered.length then
        let limited := filtered.take maxDup
        ⟨s.claimed ++ limited, s.groups ++ [limited]⟩
      else s
    else s

/-- The grouping loop over `i = 0 … hashList.length - 1`. -/
def assemble (points : List (List Nat)) (maxDup maxDist : Nat) : List (List Nat) :=
  ((List.range points.length).foldl (assembleStep points maxDup maxDist) ⟨[], []⟩).groups

/-! ## Input collection -/

/-- The contribution of one item of an array source to `allImagePaths`:
skip missing paths; expand a directory to its sorted image children (a
failed listing contributes nothing); keep an image file; drop anything
else. -/
def contrib (fs : FS) (item : String) : List String :=
  if fs.zexists item then
    if fs.isDir item then
      match fs.readdir item with
      | some files => (List.insertionSort strR (files.filter isImageFile)).map (pathJoin item)
      | none => []
    else if isImageFile item then [item] else []
  else []

/-- The `imageFilePaths` computation of `findDuplicateImages`: an array
source is expanded item by item and the merged list sorted again; a single
directory path is listed (a failed listing rejects the call), filtered and
sorted. -/
def computePaths (fs : FS) : String ⊕ List String → Except String (List String)
  | .inr items => .ok (List.insertionSort strR (items.flatMap (contrib fs)))
  | .inl dir =>
    match fs.readdir dir with
    | none => .error ("could not read directory " ++ dir)
    | some files =>
      .ok ((List.insertionSort strR (files.filter isImageFile)).map (pathJoin dir))

/-! ## Group resolution and sorting -/

/-- The group sort comparator: descending by `width * height`; on equal
pixel count, ascending by `basename` (the source's `localeCompare` read as
the ordinal comparison the spec specifies). -/
def imgLe (a b : Img) : Bool :=
  if b.width * b.height < a.width * a.height then true
  else if a.width * a.height < b.width * b.height then false
  else strLe (basename a.path) (basename b.path)

/-- The sorting relation of the group sorter. -/
abbrev imgR (a b : Img) : Prop := imgLe a b = true

/-- `filesWithMetadata.sort(...)` of the source. -/
def sortGroup (l : List Img) : List Img := List.insertionSort imgR l

/-- The metadata loop over one group: silently drop files that no longer
pass `pathExists`, read metadata for the rest, and abort the whole call on
a metadata failure. -/
def resolveGroup (fs : FS) : List String → Except String (List Img)
  | [] => .ok []
  | f :: rest =>
    if fs.zexists f then
      match fs.meta f with
      | none => .error ("Could not read metadata for " ++ f)
      | some (w, h) =>
        match resolveGroup fs rest with
        | .error e => .error e
        | .ok l => .ok (⟨f, w, h⟩ :: l)
    else resolveGroup fs rest

/-- The final loop of `findDuplicateImages`: resolve each group to
metadata, sort it, and keep it when non-empty. -/
def resolveGroups (fs : FS) : List (List String) → Except String (List (List Img))
  | [] => .ok []
  | g :: rest =>
    match resolveGroup fs g with
    | .error e => .error e
    | .ok l =>
      match resolveGroups fs rest with
      | .error e => .error e
      | .ok out =>
        .ok (if 0 < (sortGroup l).length then sortGroup l :: out else out)

/-- Embeds `findDuplicateImages`: collect and sort the image paths, hash
them sequentially (`mapLimit` with concurrency 1), build the spatial index
over the hash list, run the grouping pass, map index groups back to paths
(`imageFilePaths[idx]`), and resolve and sort each group. -/
def findDuplicateImages (fs : FS) (source : String ⊕ List String)
    (hashSize maxDup maxDist : Nat) : Except String (List (List Img)) :=
  match computePaths fs source with
  | .error e => .error e
  | .ok paths =>
    match mapLimit (hashFile fs hashSize) 1 paths with
    | .error e => .error e
    | .ok hashes =>
      resolveGroups fs
        ((assemble hashes maxDup maxDist).map fun g => g.map fun i => paths.getD i "")

/-! ## Concrete filesystem snapshots used as test fixtures -/

/-- A 20-pixel all-zero buffer: the `sharp` output for a flat image resized
to the 5-by-4 grid of `hashSize = 4`. -/
def zeros20 : List Nat := List.replicate 20 0

/-- Fixture: directory `d` with two identical flat images `a.png`, `b.png`
(equal buffers, equal 2-by-3 metadata) and a directory `e` holding no image
file. -/
def fsA : FS where
  zexists := fun s => s == "d" || s == "d/a.png" || s == "d/b.png" || s == "e"
  isDir := fun s => s == "d" || s == "e"
  readdir := fun s =>
    if s == "d" then some ["a.png", "b.png"]
    else if s == "e" then some ["notes.txt"] else none
  pixels := fun s _ => if s == "d/a.png" || s == "d/b.png" then some zeros20 else none
  meta := fun s => if s == "d/a.png" || s == "d/b.png" then some (2, 3) else none

/-- Fixture: like `fsA` but the metadata read for `d/a.png` throws. -/
def fsMetaFail : FS where
  zexists := fun s => s == "d" || s == "d/a.png" || s == "d/b.png"
  isDir := fun s => s == "d"
  readdir := fun s => if s == "d" then some ["a.png", "b.png"] else none
  pixels := fun s _ => if s == "d/a.png" || s == "d/b.png" then some zeros20 else none
  meta := fun s => if s == "d/b.png" then some (2, 3) else none

/-- Fixture: like `fsA` but `b.png` has the higher resolution, so the
group sorter has to reorder. -/
def fsRes : FS where
  zexists := fun s => s == "d" || s == "d/a.png" || s == "d/b.png"
  isDir := fun s => s == "d"
  readdir := fun s => if s == "d" then some ["a.png", "b.png"] else none
  pixels := fun s _ => if s == "d/a.png" || s == "d/b.png" then some zeros20 else none
  meta := fun s =>
    if s == "d/a.png" then some (1, 1)
    else if s == "d/b.png" then some (2, 2) else none

end ImgDup

namespace ImgDup

/-! ## Helper lemmas: optional lists and row-major concatenation -/

theorem optList_map_some {α : Type} (l : List α) : optList (l.map some) = some l := by
  induction l with
  | nil => rfl
  | cons a rest ih => simp [optList, ih]

theorem optList_length {α : Type} (l : List (Option α)) (l' : List α)
    (h : optList l = some l') : l'.length = l.length := by
  induction l generalizing l' with
  | nil => simp [optList] at h; simp [← h]
  | cons a rest ih =>
    match a with
    | none => simp [optList] at h
    | some x =>
      simp only [optList, Option.map_eq_some'] at h
      obtain ⟨t, ht, rfl⟩ := h
      simp [ih t ht]

theorem optList_isSome {α : Type} (l : List (Option α)) (h : ∀ x ∈ l, x.isSome) :
    (optList l).isSome := by
  induction l with
  | nil => simp [optList]
  | cons a rest ih =>
    match ha : a with
    | none => exact absurd (h none (by simp)) (by simp)
    | some x =>
      have := ih fun y hy => h y (by simp [hy])
      simp only [optList]
      match optList rest, this with
      | some t, _ => simp

theorem flatMap_range_map_length {α : Type} (f : Nat → Nat → α) (n m : Nat) :
    ((List.range n).flatMap fun r => (List.range m).map (f r)).length = n * m := by
  induction n with
  | zero => simp
  | succ k ih =>
    rw [List.range_succ, List.flatMap_append]
    simp [ih, Nat.succ_mul]

theorem flatMap_range_map_getElem {α : Type} (f : Nat → Nat → α) {n m r c : Nat}
    (hr : r < n) (hc : c < m) :
    ((List.range n).flatMap fun r => (List.range m).map (f r))[r * m + c]? = some (f r c) := by
  induction n with
  | zero => omega
  | succ k ih =>
    rw [List.range_succ, List.flatMap_append]
    by_cases h : r < k
    · rw [List.getElem?_append_left]
      · exact ih h
      · rw [flatMap_range_map_length]
        calc r * m + c < r * m + m := by omega
          _ = (r + 1) * m := (Nat.succ_mul r m).symm
          _ ≤ k * m := Nat.mul_le_mul_right m h
    · have hrk : r = k := by omega
      subst hrk
      rw [List.getElem?_append_right]
      · rw [flatMap_range_map_length]
        simp [List.getElem?_map, List.getElem?_range, hc]
      · rw [flatMap_range_map_length]; omega

theorem dhash_index_lt (n r c : Nat) (hr : r < n) (hc : c < n) :
    (n + 1) * r + (c + 1) < (n + 1) * n := by
  have h1 : (n + 1) * r + (c + 1) < (n + 1) * (r + 1) := by
    have he : (n + 1) * (r + 1) = (n + 1) * r + (n + 1) := by ring
    omega
  have h2 : (n + 1) * (r + 1) ≤ (n + 1) * n := Nat.mul_le_mul_left _ hr
  omega

theorem dhashBit_eval (n r c : Nat) (pixels : List Nat) (hlen : (n + 1) * n ≤ pixels.length)
    (hr : r < n) (hc : c < n) :
    dhashBit pixels (n + 1) r c =
      some (decide (pixels.getD ((n + 1) * r + c) 0 < pixels.getD ((n + 1) * r + (c + 1)) 0)) := by
  have h2 : (n + 1) * r + (c + 1) < pixels.length :=
    Nat.lt_of_lt_of_le (dhash_index_lt n r c hr hc) hlen
  have h1 : (n + 1) * r + c < pixels.length := by omega
  simp only [dhashBit, px]
  rw [if_pos h1, if_pos h2]

theorem dhashBits_eval (n : Nat) (pixels : List Nat) (hlen : (n + 1) * n ≤ pixels.length) :
    dhashBits pixels n = some ((List.range n).flatMap fun r => (List.range n).map fun c =>
      decide (pixels.getD ((n + 1) * r + c) 0 < pixels.getD ((n + 1) * r + (c + 1)) 0)) := by
  unfold dhashBits
  rw [show ((List.range n).flatMap fun row =>
        (List.range n).map fun col => dhashBit pixels (n + 1) row col) =
      ((List.range n).flatMap fun r => (List.range n).map fun c =>
        decide (pixels.getD ((n + 1) * r + c) 0 <
          pixels.getD ((n + 1) * r + (c + 1)) 0)).map some from ?_]
  · exact optList_map_some _
  · rw [List.map_flatMap]
    apply List.flatMap_congr
    intro r hrm
    rw [List.map_map]
    apply List.map_congr_left
    intro c hcm
    exact dhashBit_eval n r c pixels hlen (List.mem_range.mp hrm) (List.mem_range.mp hcm)

/-- C4: for a decoded grayscale buffer of the `(n+1)`-wide, `n`-high grid,
the bit `dhash` emits for row `r`, column `c` is `1` exactly when the pixel
at `(c, r)` is strictly less than the pixel at `(c+1, r)` (row-major buffer
of width `n+1`), and the bits are concatenated row-major: the bit string
equals the row-major concatenation, and its entry at position `r * n + c`
is that comparison bit. -/
theorem dhash_row_major_bits (n : Nat) (pixels : List Nat)
    (hlen : pixels.length = (n + 1) * n) :
    dhashBits pixels n = some ((List.range n).flatMap fun r => (List.range n).map fun c =>
        decide (pixels.getD ((n + 1) * r + c) 0 < pixels.getD ((n + 1) * r + (c + 1)) 0)) ∧
    ∀ bits, dhashBits pixels n = some bits →
      bits.length = n * n ∧
      ∀ r c, r < n → c < n →
        bits[r * n + c]? =
          some (decide (pixels.getD ((n + 1) * r + c) 0 <
            pixels.getD ((n + 1) * r + (c + 1)) 0)) := by
  have hge : (n + 1) * n ≤ pixels.length := le_of_eq hlen.symm
  have hmain := dhashBits_eval n pixels hge
  refine ⟨hmain, fun bits hb => ?_⟩
  rw [hmain] at hb
  obtain rfl : _ = bits := Option.some.inj hb
  constructor
  · exact flatMap_range_map_length _ n n
  · intro r c hr hc
    exact flatMap_range_map_getElem _ hr hc

/-- Witness for C4 at `n = 4` on a concrete 20-pixel buffer. -/
theorem dhash_row_major_bits_witness :
    dhashBits (List.replicate 20 0) 4 =
      some ((List.range 4).flatMap fun r => (List.range 4).map fun c =>
        decide ((List.replicate 20 0).getD (5 * r + c) 0 <
          (List.replicate 20 0).getD (5 * r + (c + 1)) 0)) ∧
    ∀ bits, dhashBits (List.replicate 20 0) 4 = some bits →
      bits.length = 4 * 4 ∧
      ∀ r c, r < 4 → c < 4 →
        bits[r * 4 + c]? =
          some (decide ((List.replicate 20 0).getD (5 * r + c) 0 <
            (List.replicate 20 0).getD (5 * r + (c + 1)) 0)) :=
  dhash_row_major_bits 4 (List.replicate 20 0) (by decide)

/-- C10: with a buffer of at least `(n+1)*n` pixels, every index
`width * row + x` computed by `px` from `dhash`'s double loop (width
`n + 1`, `row < n`, `x = col` or `x = col + 1` with `col < n`) is strictly
below the buffer length, both `px` calls succeed, and hence the whole bit
computation succeeds: the assertion branch is unreachable. -/
theorem px_assertion_unreachable (n : Nat) (pixels : List Nat) (_hn : 1 ≤ n)
    (hlen : (n + 1) * n ≤ pixels.length) :
    (∀ row col, row < n → col < n →
      (n + 1) * row + col < pixels.length ∧
      (n + 1) * row + (col + 1) < pixels.length ∧
      (px pixels (n + 1) col row).isSome ∧
      (px pixels (n + 1) (col + 1) row).isSome) ∧
    (dhashBits pixels n).isSome := by
  have hidx : ∀ row col, row < n → col < n → (n + 1) * row + (col + 1) < pixels.length :=
    fun row col hr hc => Nat.lt_of_lt_of_le (dhash_index_lt n row col hr hc) hlen
  constructor
  · intro row col hr hc
    have h2 := hidx row col hr hc
    have h1 : (n + 1) * row + col < pixels.length := by omega
    refine ⟨h1, h2, ?_, ?_⟩
    · simp only [px]; rw [if_pos h1]; rfl
    · simp only [px]; rw [if_pos h2]; rfl
  · rw [dhashBits_eval n pixels hlen]; rfl

/-- Witness for C10 at `n = 4` on a concrete 20-pixel buffer. -/
theorem px_assertion_unreachable_witness :
    (∀ row col, row < 4 → col < 4 →
      5 * row + col < (List.replicate 20 0).length ∧
      5 * row + (col + 1) < (List.replicate 20 0).length ∧
      (px (List.replicate 20 0) 5 col row).isSome ∧
      (px (List.replicate 20 0) 5 (col + 1) row).isSome) ∧
    (dhashBits (List.replicate 20 0) 4).isSome :=
  px_assertion_unreachable 4 (List.replicate 20 0) (by decide) (by decide)

/-! ## C3: bit packing -/

theorem byteToBits_nibbles (a b c d e f g h : Bool) :
    byteToBits (16 * nibbleVal [a, b, c, d] + nibbleVal [e, f, g, h]) =
      [a, b, c, d, e, f, g, h] := by
  revert a b c d e f g h; decide

theorem bytesToBits_length (bs : List Nat) : (bytesToBits bs).length = 8 * bs.length := by
  induction bs with
  | nil => rfl
  | cons b rest ih => simp [bytesToBits, byteToBits, List.flatMap_cons] at ih ⊢; omega

theorem bytesToBits_binaryToHex :
    ∀ bits : List Bool, bits.length % 8 = 0 → bytesToBits (binaryToHex bits) = bits
  | [], _ => rfl
  | [_], h => by simp at h
  | [_, _], h => by simp at h
  | [_, _, _], h => by simp at h
  | [_, _, _, _], h => by simp at h
  | [_, _, _, _, _], h => by simp at h
  | [_, _, _, _, _, _], h => by simp at h
  | [_, _, _, _, _, _, _], h => by simp at h
  | a :: b :: c :: d :: e :: f :: g :: i :: rest, h => by
    have h' : rest.length % 8 = 0 := by
      simp only [List.length_cons] at h; omega
    have ih := bytesToBits_binaryToHex rest h'
    simp only [binaryToHex] at ih ⊢
    simp only [hexDigits, hexPairsToBytes, bytesToBits, List.flatMap_cons]
    rw [byteToBits_nibbles]
    simp only [bytesToBits] at ih
    rw [ih]
    rfl
  termination_by bits => bits.length

/-- C3 counterexample: at `hashSize = 2` the sixteen-pixel claim fails — on
the concrete buffer `[0,1,0,0,0,0]` the loop emits the four bits `1000`,
which pack into the single hex digit `8`; `Buffer.from("8", "hex")` drops
the unpaired digit, so the fingerprint is the empty byte string and all
four bits are lost. -/
theorem dhash_packing_counterexample :
    dhashBits [0, 1, 0, 0, 0, 0] 2 = some [true, false, false, false] ∧
    binaryToHex [true, false, false, false] = [] ∧
    bytesToBits (binaryToHex [true, false, false, false]) ≠ [true, false, false, false] := by
  decide

/-- C3 (amended): when `n * n` is a multiple of 8 — in particular for the
default `hashSize = 8` — the packing loses no bits: decoding the packed
bytes recovers exactly the `n * n` emitted bits, and the fingerprint holds
exactly `n * n` bits.  (For other `n` the bits beyond the last full byte
are dropped, as the counterexample shows.) -/
theorem dhash_packing_exact (n : Nat) (pixels : List Nat) (bits : List Bool)
    (hdvd : n * n % 8 = 0) (hb : dhashBits pixels n = some bits) :
    bytesToBits (binaryToHex bits) = bits ∧ 8 * (binaryToHex bits).length = n * n := by
  have hlen : bits.length = n * n := by
    have := optList_length _ _ hb
    rw [this, flatMap_range_map_length]
  have h8 : bits.length % 8 = 0 := by rw [hlen]; exact hdvd
  have hrt := bytesToBits_binaryToHex bits h8
  refine ⟨hrt, ?_⟩
  have := congrArg List.length hrt
  rw [bytesToBits_length] at this
  omega

/-- Witness for C3 (amended) at `n = 4` on a concrete buffer of zeros. -/
theorem dhash_packing_exact_witness :
    bytesToBits (binaryToHex (List.replicate 16 false)) = List.replicate 16 false ∧
    8 * (binaryToHex (List.replicate 16 false)).length = 4 * 4 :=
  dhash_packing_exact 4 (List.replicate 20 0) (List.replicate 16 false) (by decide) (by decide)

end ImgDup

namespace ImgDup

/-! ## Order properties of the string comparison -/

theorem charListLe_key {a b : Char} {as bs : List Char}
    (h : charListLe (a :: as) (b :: bs) = true) :
    a.toNat < b.toNat ∨ (a.toNat = b.toNat ∧ charListLe as bs = true) := by
  by_cases hab : a.toNat < b.toNat
  · exact Or.inl hab
  · simp only [charListLe, if_neg hab] at h
    by_cases hba : b.toNat < a.toNat
    · rw [if_pos hba] at h; exact absurd h (by simp)
    · rw [if_neg hba] at h; exact Or.inr ⟨by omega, h⟩

theorem charListLe_total : ∀ l₁ l₂ : List Char,
    charListLe l₁ l₂ = true ∨ charListLe l₂ l₁ = true
  | [], _ => Or.inl rfl
  | _ :: _, [] => Or.inr rfl
  | a :: as, b :: bs => by
    simp only [charListLe]
    rcases Nat.lt_trichotomy a.toNat b.toNat with h | h | h
    · left; rw [if_pos h]
    · rw [if_neg (by omega), if_neg (by omega), if_neg (by omega), if_neg (by omega)]
      exact charListLe_total as bs
    · right; rw [if_pos h]

theorem charListLe_trans : ∀ l₁ l₂ l₃ : List Char,
    charListLe l₁ l₂ = true → charListLe l₂ l₃ = true → charListLe l₁ l₃ = true
  | [], _, _ => fun _ _ => rfl
  | _ :: _, [], _ => fun h _ => by simp [charListLe] at h
  | _ :: _, _ :: _, [] => fun _ h => by simp [charListLe] at h
  | a :: as, b :: bs, c :: cs => fun h1 h2 => by
    rcases charListLe_key h1 with hab | ⟨hab, hrec1⟩ <;>
      rcases charListLe_key h2 with hbc | ⟨hbc, hrec2⟩ <;>
        simp only [charListLe]
    · rw [if_pos (by omega)]
    · rw [if_pos (by omega)]
    · rw [if_pos (by omega)]
    · rw [if_neg (by omega), if_neg (by omega)]
      exact charListLe_trans as bs cs hrec1 hrec2

theorem charListLe_antisymm : ∀ l₁ l₂ : List Char,
    charListLe l₁ l₂ = true → charListLe l₂ l₁ = true → l₁ = l₂
  | [], [] => fun _ _ => rfl
  | [], _ :: _ => fun _ h => by simp [charListLe] at h
  | _ :: _, [] => fun h _ => by simp [charListLe] at h
  | a :: as, b :: bs => fun h1 h2 => by
    rcases charListLe_key h1 with hab | ⟨hab, hrec1⟩ <;>
      rcases charListLe_key h2 with hba | ⟨hba, hrec2⟩
    · omega
    · omega
    · omega
    · have hc : a = b := Char.ext (UInt32.ext hab)
      rw [hc, charListLe_antisymm as bs hrec1 hrec2]

theorem strLe_total (a b : String) : strR a b ∨ strR b a := charListLe_total a.data b.data

theorem strLe_trans {a b c : String} (h1 : strR a b) (h2 : strR b c) : strR a c :=
  charListLe_trans a.data b.data c.data h1 h2

theorem strLe_antisymm {a b : String} (h1 : strR a b) (h2 : strR b a) : a = b := by
  have hd : a.data = b.data := charListLe_antisymm a.data b.data h1 h2
  cases a; cases b; simp only at hd; rw [hd]

/-! ## `mapLimit` and the hashing phase -/

theorem exceptMapAll_append {α β : Type} (f : α → Except String β) (l₁ l₂ : List α) :
    exceptMapAll f (l₁ ++ l₂) =
      match exceptMapAll f l₁ with
      | .error e => .error e
      | .ok b₁ =>
        match exceptMapAll f l₂ with
        | .error e => .error e
        | .ok b₂ => .ok (b₁ ++ b₂) := by
  induction l₁ with
  | nil =>
    simp only [List.nil_append, exceptMapAll]
    cases exceptMapAll f l₂ <;> rfl
  | cons a rest ih =>
    rw [List.cons_append]
    simp only [exceptMapAll]
    rw [ih]
    cases f a with
    | error e => rfl
    | ok b =>
      cases exceptMapAll f rest with
      | error e => rfl
      | ok bs =>
        cases exceptMapAll f l₂ with
        | error e => rfl
        | ok b₂ => rfl

theorem mapLimitGo_spec {α β : Type} (f : α → Except String β) (limit : Nat)
    (_hl : 0 < limit) :
    ∀ fuel (l : List α), l.length ≤ fuel → mapLimitGo f limit fuel l = exceptMapAll f l := by
  intro fuel
  induction fuel with
  | zero =>
    intro l hle
    match l with
    | [] => rfl
    | a :: rest => simp at hle
  | succ k ih =>
    intro l hle
    match l with
    | [] => rfl
    | a :: rest =>
      have hsplit : a :: rest = (a :: rest.take (limit - 1)) ++ rest.drop (limit - 1) := by
        simp [List.take_append_drop]
      conv_rhs => rw [hsplit]
      rw [exceptMapAll_append]
      simp only [mapLimitGo]
      have hlen : rest.length ≤ k := by
        simp only [List.length_cons] at hle; omega
      rw [ih (rest.drop (limit - 1)) (by simp only [List.length_drop]; omega)]

theorem mapLimit_eq_exceptMapAll {α β : Type} (f : α → Except String β) (limit : Nat)
    (hl : 0 < limit) (l : List α) : mapLimit f limit l = exceptMapAll f l :=
  mapLimitGo_spec f limit hl l.length l (le_refl _)

theorem exceptMapAll_forall₂ {α β : Type} (f : α → Except String β) :
    ∀ (l : List α) (res : List β), exceptMapAll f l = .ok res →
      List.Forall₂ (fun a b => f a = .ok b) l res
  | [], res => by
    intro h
    simp only [exceptMapAll] at h
    obtain rfl : ([] : List β) = res := by injection h
    exact .nil
  | a :: rest, res => by
    intro h
    simp only [exceptMapAll] at h
    cases hfa : f a with
    | error e => rw [hfa] at h; exact absurd h (by simp)
    | ok b =>
      rw [hfa] at h
      cases hrest : exceptMapAll f rest with
      | error e => rw [hrest] at h; exact absurd h (by simp)
      | ok bs =>
        rw [hrest] at h
        obtain rfl : b :: bs = res := by injection h
        exact .cons hfa (exceptMapAll_forall₂ f rest bs hrest)

theorem forall₂_getElem? {α β : Type} {R : α → β → Prop} {l₁ : List α} {l₂ : List β}
    (h : List.Forall₂ R l₁ l₂) :
    ∀ (i : Nat) (a : α), l₁[i]? = some a → ∃ b, l₂[i]? = some b ∧ R a b := by
  induction h with
  | nil => intro i a h0; simp at h0
  | cons hR _ ih =>
    intro i a h0
    match i with
    | 0 =>
      simp only [List.getElem?_cons_zero, Option.some.injEq] at h0
      subst h0
      exact ⟨_, by simp, hR⟩
    | i + 1 =>
      simp only [List.getElem?_cons_succ] at h0 ⊢
      exact ih i a h0

theorem exceptMapAll_mem_ok {α β : Type} (f : α → Except String β) :
    ∀ (l : List α) (res : List β), exceptMapAll f l = .ok res →
      ∀ a ∈ l, ∃ b, f a = .ok b
  | [], _, _ => by intro a ha; simp at ha
  | x :: rest, res, h => by
    simp only [exceptMapAll] at h
    cases hfx : f x with
    | error e => rw [hfx] at h; exact absurd h (by simp)
    | ok b =>
      rw [hfx] at h
      cases hrest : exceptMapAll f rest with
      | error e => rw [hrest] at h; exact absurd h (by simp)
      | ok bs =>
        intro a ha
        rcases List.mem_cons.mp ha with rfl | ha'
        · exact ⟨b, hfx⟩
        · exact exceptMapAll_mem_ok f rest bs hrest a ha'

/-- C8: the hash list is order-preserving — whenever `mapLimit` with the
`dhash` iteratee succeeds on a list of image paths (for any batch size
`limit ≥ 1`; the run uses 1), the result has the same length as the path
list and its `i`-th entry is exactly the fingerprint of the `i`-th path, so
an index returned by a tree query refers to `imageFilePaths[idx]`. -/
theorem mapLimit_order_preserving (fs : FS) (hashSize limit : Nat) (paths : List String)
    (res : List (List Nat)) (hl : 0 < limit)
    (h : mapLimit (hashFile fs hashSize) limit paths = .ok res) :
    res.length = paths.length ∧
    ∀ (i : Nat) (p : String), paths[i]? = some p →
      ∃ hsh, res[i]? = some hsh ∧ hashFile fs hashSize p = .ok hsh := by
  rw [mapLimit_eq_exceptMapAll _ _ hl] at h
  have hf := exceptMapAll_forall₂ _ _ _ h
  exact ⟨hf.length_eq.symm, fun i p hp => forall₂_getElem? hf i p hp⟩

/-- Witness for C8: one concrete path hashed with `limit = 1`. -/
theorem mapLimit_order_preserving_witness :
    ([[0, 0]] : List (List Nat)).length = (["d/a.png"] : List String).length ∧
    ∀ (i : Nat) (p : String), (["d/a.png"] : List String)[i]? = some p →
      ∃ hsh, ([[0, 0]] : List (List Nat))[i]? = some hsh ∧ hashFile fsA 4 p = .ok hsh :=
  mapLimit_order_preserving fsA 4 1 ["d/a.png"] [[0, 0]] (by decide) rfl

end ImgDup

namespace ImgDup

/-! ## Properties of the modelled knn query and the grouping pass -/

theorem knnModel_nodup (points : List (List Nat)) (q : List Nat) (k maxDist : Nat) :
    (knnModel points q k maxDist).Nodup := by
  unfold knnModel
  apply List.Nodup.sublist (List.take_sublist _ _)
  apply (List.perm_insertionSort _ _).nodup_iff.mpr
  exact (List.nodup_range _).filter _

theorem knnModel_mem (points : List (List Nat)) (q : List Nat) (k maxDist : Nat) :
    ∀ i ∈ knnModel points q k maxDist, i < points.length := by
  intro i hi
  unfold knnModel at hi
  have h1 := (List.take_sublist _ _).mem hi
  have h2 := (List.perm_insertionSort _ _).mem_iff.mp h1
  exact List.mem_range.mp (List.mem_filter.mp h2).1

theorem foldl_preserve {β σ : Type} (P : σ → Prop) (step : σ → β → σ)
    (hstep : ∀ s a, P s → P (step s a)) :
    ∀ (l : List β) (s : σ), P s → P (l.foldl step s) := by
  intro l
  induction l with
  | nil => intro s h; exact h
  | cons a rest ih => intro s h; exact ih _ (hstep s a h)

theorem assembleStep_preserve (points : List (List Nat)) (maxDup maxDist : Nat)
    (s : AState) (i : Nat)
    (h : s.groups.flatten.Nodup ∧ (∀ x ∈ s.groups.flatten, x ∈ s.claimed) ∧
      ∀ g ∈ s.groups, (2 ≤ maxDup → 2 ≤ g.length) ∧ g.length ≤ maxDup ∧
        ∀ j ∈ g, j < points.length) :
    ((assembleStep points maxDup maxDist s i).groups.flatten.Nodup ∧
      (∀ x ∈ (assembleStep points maxDup maxDist s i).groups.flatten,
        x ∈ (assembleStep points maxDup maxDist s i).claimed) ∧
      ∀ g ∈ (assembleStep points maxDup maxDist s i).groups,
        (2 ≤ maxDup → 2 ≤ g.length) ∧ g.length ≤ maxDup ∧
          ∀ j ∈ g, j < points.length) := by
  obtain ⟨h1, h2, h3⟩ := h
  simp only [assembleStep]
  by_cases hmem : i ∈ s.claimed
  · simp only [if_pos hmem]; exact ⟨h1, h2, h3⟩
  · simp only [if_neg hmem]
    by_cases hlen1 : 1 < (knnModel points (points.getD i []) (maxDup + 1) maxDist).length
    · simp only [if_pos hlen1]
      by_cases hlen2 : 1 < ((knnModel points (points.getD i []) (maxDup + 1) maxDist).filter
          fun idx => decide (idx ∉ s.claimed)).length
      · simp only [if_pos hlen2]
        refine ⟨?_, ?_, ?_⟩
        · rw [List.flatten_append, List.flatten_cons, List.flatten_nil, List.append_nil]
          rw [List.nodup_append]
          refine ⟨h1, ?_, ?_⟩
          · exact ((knnModel_nodup points (points.getD i []) (maxDup + 1) maxDist).filter
              _).sublist (List.take_sublist _ _)
          · intro x hx hx'
            have hxc := h2 x hx
            have hxf := (List.take_sublist _ _).mem hx'
            have := (List.mem_filter.mp hxf).2
            exact (of_decide_eq_true this) hxc
        · intro x hx
          rw [List.flatten_append, List.flatten_cons, List.flatten_nil,
            List.append_nil] at hx
          rcases List.mem_append.mp hx with hx | hx
          · exact List.mem_append_left _ (h2 x hx)
          · exact List.mem_append_right _ hx
        · intro g hg
          rcases List.mem_append.mp hg with hg | hg
          · exact h3 g hg
          · obtain rfl : g = _ := List.mem_singleton.mp hg
            refine ⟨?_, ?_, ?_⟩
            · intro hmd
              rw [List.length_take]
              exact le_min hmd hlen2
            · rw [List.length_take]
              exact min_le_left _ _
            · intro j hj
              have hjf := (List.take_sublist _ _).mem hj
              exact knnModel_mem points (points.getD i []) (maxDup + 1) maxDist j
                (List.mem_filter.mp hjf).1
      · simp only [if_neg hlen2]; exact ⟨h1, h2, h3⟩
    · simp only [if_neg hlen1]; exact ⟨h1, h2, h3⟩

theorem assemble_inv (points : List (List Nat)) (maxDup maxDist : Nat) :
    (assemble points maxDup maxDist).flatten.Nodup ∧
    ∀ g ∈ assemble points maxDup maxDist,
      (2 ≤ maxDup → 2 ≤ g.length) ∧ g.length ≤ maxDup ∧ ∀ j ∈ g, j < points.length := by
  have h := foldl_preserve
    (fun s : AState => s.groups.flatten.Nodup ∧
      (∀ x ∈ s.groups.flatten, x ∈ s.claimed) ∧
      ∀ g ∈ s.groups, (2 ≤ maxDup → 2 ≤ g.length) ∧ g.length ≤ maxDup ∧
        ∀ j ∈ g, j < points.length)
    (assembleStep points maxDup maxDist)
    (fun s i hs => assembleStep_preserve points maxDup maxDist s i hs)
    (List.range points.length) ⟨[], []⟩ (by simp)
  exact ⟨h.1, h.2.2⟩

end ImgDup

namespace ImgDup

/-! ## Properties of group resolution and sorting -/

theorem resolveGroup_sublist (fs : FS) :
    ∀ (g : List String) (l : List Img), resolveGroup fs g = .ok l →
      List.Sublist (l.map Img.path) g
  | [], l, h => by
    simp only [resolveGroup] at h
    obtain rfl : ([] : List Img) = l := by injection h
    simp
  | f :: rest, l, h => by
    simp only [resolveGroup] at h
    by_cases hex : fs.zexists f
    · rw [if_pos hex] at h
      cases hme : fs.meta f with
      | none => rw [hme] at h; exact absurd h (by simp)
      | some wh =>
        obtain ⟨w, ht⟩ := wh
        rw [hme] at h
        cases hrest : resolveGroup fs rest with
        | error e => rw [hrest] at h; exact absurd h (by simp)
        | ok l' =>
          rw [hrest] at h
          obtain rfl : (⟨f, w, ht⟩ : Img) :: l' = l := by injection h
          simp only [List.map_cons]
          exact (resolveGroup_sublist fs rest l' hrest).cons₂ f
    · rw [if_neg hex] at h
      exact (resolveGroup_sublist fs rest l h).cons f

theorem resolveGroup_length (fs : FS) :
    ∀ (g : List String) (l : List Img), (∀ f ∈ g, fs.zexists f = true) →
      resolveGroup fs g = .ok l → l.length = g.length
  | [], l, _, h => by
    simp only [resolveGroup] at h
    obtain rfl : ([] : List Img) = l := by injection h
    rfl
  | f :: rest, l, hall, h => by
    simp only [resolveGroup] at h
    rw [if_pos (hall f (by simp))] at h
    cases hme : fs.meta f with
    | none => rw [hme] at h; exact absurd h (by simp)
    | some wh =>
      obtain ⟨w, ht⟩ := wh
      rw [hme] at h
      cases hrest : resolveGroup fs rest with
      | error e => rw [hrest] at h; exact absurd h (by simp)
      | ok l' =>
        rw [hrest] at h
        obtain rfl : (⟨f, w, ht⟩ : Img) :: l' = l := by injection h
        have := resolveGroup_length fs rest l' (fun x hx => hall x (by simp [hx])) hrest
        simp [this]

theorem resolveGroup_error (fs : FS) :
    ∀ (g : List String) (f : String), f ∈ g → fs.zexists f = true → fs.meta f = none →
      ∃ e, resolveGroup fs g = .error e
  | [], f, hf, _, _ => absurd hf (by simp)
  | x :: rest, f, hf, hex, hme => by
    rcases List.mem_cons.mp hf with rfl | hf'
    · refine ⟨"Could not read metadata for " ++ f, ?_⟩
      simp only [resolveGroup, if_pos hex, hme]
    · by_cases hx : fs.zexists x
      · cases hmx : fs.meta x with
        | none =>
          refine ⟨"Could not read metadata for " ++ x, ?_⟩
          simp only [resolveGroup, if_pos hx, hmx]
        | some wh =>
          obtain ⟨w, ht⟩ := wh
          obtain ⟨e, he⟩ := resolveGroup_error fs rest f hf' hex hme
          refine ⟨e, ?_⟩
          simp only [resolveGroup, if_pos hx, hmx, he]
      · obtain ⟨e, he⟩ := resolveGroup_error fs rest f hf' hex hme
        refine ⟨e, ?_⟩
        simp only [resolveGroup, if_neg hx, he]

theorem resolveGroups_mem (fs : FS) :
    ∀ (gs : List (List String)) (out : List (List Img)), resolveGroups fs gs = .ok out →
      ∀ img ∈ out.flatten, img.path ∈ gs.flatten
  | [], out, h => by
    simp only [resolveGroups] at h
    obtain rfl : ([] : List (List Img)) = out := by injection h
    simp
  | g :: rest, out, h => by
    simp only [resolveGroups] at h
    cases hg : resolveGroup fs g with
    | error e => rw [hg] at h; exact absurd h (by simp)
    | ok l =>
      rw [hg] at h
      cases hrest : resolveGroups fs rest with
      | error e => rw [hrest] at h; exact absurd h (by simp)
      | ok out' =>
        rw [hrest] at h
        have hmem' := resolveGroups_mem fs rest out' hrest
        have hl : ∀ img ∈ sortGroup l, img.path ∈ g := by
          intro img himg
          have h1 : img ∈ l := (List.perm_insertionSort imgR l).mem_iff.mp himg
          have h2 : img.path ∈ l.map Img.path := List.mem_map_of_mem Img.path h1
          exact (resolveGroup_sublist fs g l hg).mem h2
        intro img himg
        have hout : out = if 0 < (sortGroup l).length then sortGroup l :: out' else out' := by
          injection h.symm
        by_cases hc : 0 < (sortGroup l).length
        · rw [hout, if_pos hc] at himg
          rw [List.flatten_cons] at himg
          rcases List.mem_append.mp himg with hx | hx
          · exact List.mem_append_left _ (hl img hx)
          · exact List.mem_append_right _ (hmem' img hx)
        · rw [hout, if_neg hc] at himg
          exact List.mem_append_right _ (hmem' img himg)

end ImgDup

namespace ImgDup

theorem resolveGroups_nodup (fs : FS) :
    ∀ (gs : List (List String)) (out : List (List Img)), gs.flatten.Nodup →
      resolveGroups fs gs = .ok out → (out.flatten.map Img.path).Nodup
  | [], out, _, h => by
    simp only [resolveGroups] at h
    obtain rfl : ([] : List (List Img)) = out := by injection h
    simp
  | g :: rest, out, hnd, h => by
    simp only [resolveGroups] at h
    cases hg : resolveGroup fs g with
    | error e => rw [hg] at h; exact absurd h (by simp)
    | ok l =>
      rw [hg] at h
      cases hrest : resolveGroups fs rest with
      | error e => rw [hrest] at h; exact absurd h (by simp)
      | ok out' =>
        rw [hrest] at h
        rw [List.flatten_cons, List.nodup_append] at hnd
        obtain ⟨hndg, hndrest, hdisj⟩ := hnd
        have hih := resolveGroups_nodup fs rest out' hndrest hrest
        have hout : out = if 0 < (sortGroup l).length then sortGroup l :: out' else out' := by
          injection h.symm
        have hsubsorted : ∀ p ∈ (sortGroup l).map Img.path, p ∈ g := by
          intro p hp
          obtain ⟨img, himg, rfl⟩ := List.mem_map.mp hp
          have h1 : img ∈ l := (List.perm_insertionSort imgR l).mem_iff.mp himg
          exact (resolveGroup_sublist fs g l hg).mem (List.mem_map_of_mem Img.path h1)
        by_cases hc : 0 < (sortGroup l).length
        · rw [hout, if_pos hc]
          rw [List.flatten_cons, List.map_append, List.nodup_append]
          refine ⟨?_, hih, ?_⟩
          · have hlp : (l.map Img.path).Nodup :=
              hndg.sublist (resolveGroup_sublist fs g l hg)
            exact (((List.perm_insertionSort imgR l).map Img.path).nodup_iff).mpr hlp
          · intro p hp hp'
            have hpg : p ∈ g := hsubsorted p hp
            have hprest : p ∈ rest.flatten := by
              obtain ⟨img, himg, rfl⟩ := List.mem_map.mp hp'
              exact resolveGroups_mem fs rest out' hrest img himg
            exact hdisj hpg hprest
        · rw [hout, if_neg hc]
          exact hih

theorem resolveGroups_length_bounds (fs : FS) (maxDup : Nat) :
    ∀ (gs : List (List String)) (out : List (List Img)),
      (∀ g ∈ gs, (∀ f ∈ g, fs.zexists f = true) ∧ 2 ≤ g.length ∧ g.length ≤ maxDup) →
      resolveGroups fs gs = .ok out → ∀ o ∈ out, 2 ≤ o.length ∧ o.length ≤ maxDup
  | [], out, _, h => by
    simp only [resolveGroups] at h
    obtain rfl : ([] : List (List Img)) = out := by injection h
    simp
  | g :: rest, out, hall, h => by
    simp only [resolveGroups] at h
    cases hg : resolveGroup fs g with
    | error e => rw [hg] at h; exact absurd h (by simp)
    | ok l =>
      rw [hg] at h
      cases hrest : resolveGroups fs rest with
      | error e => rw [hrest] at h; exact absurd h (by simp)
      | ok out' =>
        rw [hrest] at h
        have hout : out = if 0 < (sortGroup l).length then sortGroup l :: out' else out' := by
          injection h.symm
        have hih := resolveGroups_length_bounds fs maxDup rest out'
          (fun x hx => hall x (by simp [hx])) hrest
        obtain ⟨hex, hlo, hhi⟩ := hall g (by simp)
        have hlen : (sortGroup l).length = g.length := by
          have hp : (sortGroup l).length = l.length := (List.perm_insertionSort imgR l).length_eq
          rw [hp]
          exact resolveGroup_length fs g l hex hg
        intro o ho
        by_cases hc : 0 < (sortGroup l).length
        · rw [hout, if_pos hc] at ho
          rcases List.mem_cons.mp ho with rfl | ho'
          · rw [hlen]; exact ⟨hlo, hhi⟩
          · exact hih o ho'
        · rw [hout, if_neg hc] at ho
          exact hih o ho

theorem resolveGroups_error (fs : FS) :
    ∀ (gs : List (List String)) (f : String), f ∈ gs.flatten → fs.zexists f = true →
      fs.meta f = none → ∃ e, resolveGroups fs gs = .error e
  | [], f, hf, _, _ => absurd hf (by simp)
  | g :: rest, f, hf, hex, hme => by
    rw [List.flatten_cons] at hf
    rcases List.mem_append.mp hf with hfg | hfr
    · obtain ⟨e, he⟩ := resolveGroup_error fs g f hfg hex hme
      exact ⟨e, by simp only [resolveGroups, he]⟩
    · cases hg : resolveGroup fs g with
      | error e => exact ⟨e, by simp only [resolveGroups, hg]⟩
      | ok l =>
        obtain ⟨e, he⟩ := resolveGroups_error fs rest f hfr hex hme
        exact ⟨e, by simp only [resolveGroups, hg, he]⟩

theorem resolveGroups_sorted_shape (fs : FS) :
    ∀ (gs : List (List String)) (out : List (List Img)), resolveGroups fs gs = .ok out →
      ∀ o ∈ out, ∃ l, o = sortGroup l
  | [], out, h => by
    simp only [resolveGroups] at h
    obtain rfl : ([] : List (List Img)) = out := by injection h
    simp
  | g :: rest, out, h => by
    simp only [resolveGroups] at h
    cases hg : resolveGroup fs g with
    | error e => rw [hg] at h; exact absurd h (by simp)
    | ok l =>
      rw [hg] at h
      cases hrest : resolveGroups fs rest with
      | error e => rw [hrest] at h; exact absurd h (by simp)
      | ok out' =>
        rw [hrest] at h
        have hout : out = if 0 < (sortGroup l).length then sortGroup l :: out' else out' := by
          injection h.symm
        have hih := resolveGroups_sorted_shape fs rest out' hrest
        intro o ho
        by_cases hc : 0 < (sortGroup l).length
        · rw [hout, if_pos hc] at ho
          rcases List.mem_cons.mp ho with rfl | ho'
          · exact ⟨l, rfl⟩
          · exact hih o ho'
        · rw [hout, if_neg hc] at ho
          exact hih o ho

/-! ## Order properties of the group comparator -/

theorem imgLe_key {a b : Img} (h : imgR a b) :
    b.width * b.height < a.width * a.height ∨
      (a.width * a.height = b.width * b.height ∧
        strLe (basename a.path) (basename b.path) = true) := by
  by_cases hlt : b.width * b.height < a.width * a.height
  · exact Or.inl hlt
  · unfold imgR imgLe at h
    rw [if_neg hlt] at h
    by_cases hgt : a.width * a.height < b.width * b.height
    · rw [if_pos hgt] at h; exact absurd h (by simp)
    · rw [if_neg hgt] at h; exact Or.inr ⟨by omega, h⟩

theorem imgLe_total (a b : Img) : imgR a b ∨ imgR b a := by
  unfold imgR imgLe
  rcases Nat.lt_trichotomy (a.width * a.height) (b.width * b.height) with h | h | h
  · right; rw [if_pos h]
  · rw [if_neg (by omega), if_neg (by omega), if_neg (by omega), if_neg (by omega)]
    exact strLe_total (basename a.path) (basename b.path)
  · left; rw [if_pos h]

theorem imgLe_trans (a b c : Img) (h1 : imgR a b) (h2 : imgR b c) : imgR a c := by
  rcases imgLe_key h1 with hab | ⟨hab, hsab⟩ <;>
    rcases imgLe_key h2 with hbc | ⟨hbc, hsbc⟩ <;>
      unfold imgR imgLe
  · rw [if_pos (by omega)]
  · rw [if_pos (by omega)]
  · rw [if_pos (by omega)]
  · rw [if_neg (by omega), if_neg (by omega)]
    exact strLe_trans hsab hsbc

end ImgDup

namespace ImgDup

/-! ## Input-collection lemmas and the pipeline claims -/

theorem contrib_nil (fs : FS) (p : String)
    (h : fs.zexists p = false ∨ (fs.isDir p = false ∧ isImageFile p = false)) :
    contrib fs p = [] := by
  unfold contrib
  rcases h with h | ⟨hdir, himg⟩
  · rw [h]; rfl
  · by_cases hex : fs.zexists p
    · simp only [hex, if_true, hdir, himg]; rfl
    · simp only [hex]; rfl

theorem computePaths_perm (fs : FS) (s₁ s₂ : List String) (hperm : List.Perm s₁ s₂) :
    computePaths fs (.inr s₁) = computePaths fs (.inr s₂) := by
  haveI : IsTotal String strR := ⟨strLe_total⟩
  haveI : IsTrans String strR := ⟨fun _ _ _ h1 h2 => strLe_trans h1 h2⟩
  haveI : IsAntisymm String strR := ⟨fun _ _ h1 h2 => strLe_antisymm h1 h2⟩
  simp only [computePaths]
  congr 1
  refine List.eq_of_perm_of_sorted ?_ (List.sorted_insertionSort strR _)
    (List.sorted_insertionSort strR _)
  exact (List.perm_insertionSort strR _).trans
    ((hperm.flatMap_right (contrib fs)).trans (List.perm_insertionSort strR _).symm)

/-- C7: the result does not depend on the order of the input array — for
any two array sources that are permutations of each other (same filesystem
snapshot, same options), `findDuplicateImages` returns identical output,
because each item's contribution is order-independent and the merged path
list is sorted before hashing. -/
theorem input_order_independence (fs : FS) (s₁ s₂ : List String)
    (hashSize maxDup maxDist : Nat) (hperm : List.Perm s₁ s₂) :
    findDuplicateImages fs (.inr s₁) hashSize maxDup maxDist =
      findDuplicateImages fs (.inr s₂) hashSize maxDup maxDist := by
  simp only [findDuplicateImages]
  rw [computePaths_perm fs s₁ s₂ hperm]

/-- Witness for C7: swapping a directory and an explicit file in the input
array leaves the output unchanged. -/
theorem input_order_independence_witness :
    findDuplicateImages fsA (.inr ["d/a.png", "d"]) 4 100 5 =
      findDuplicateImages fsA (.inr ["d", "d/a.png"]) 4 100 5 :=
  input_order_independence fsA ["d/a.png", "d"] ["d", "d/a.png"] 4 100 5 (by decide)

/-- C9: empty runs — an empty input array, an input array all of whose
entries are non-existent paths or existing non-directory non-image paths,
and a single existing directory with no image-file children all produce the
empty list of groups. -/
theorem empty_input_law :
    (∀ (fs : FS) (hashSize maxDup maxDist : Nat),
      findDuplicateImages fs (.inr []) hashSize maxDup maxDist = .ok []) ∧
    (∀ (fs : FS) (l : List String) (hashSize maxDup maxDist : Nat),
      (∀ p ∈ l, fs.zexists p = false ∨ (fs.isDir p = false ∧ isImageFile p = false)) →
      findDuplicateImages fs (.inr l) hashSize maxDup maxDist = .ok []) ∧
    (∀ (fs : FS) (d : String) (files : List String) (hashSize maxDup maxDist : Nat),
      fs.readdir d = some files → files.filter isImageFile = [] →
      findDuplicateImages fs (.inl d) hashSize maxDup maxDist = .ok []) := by
  refine ⟨fun fs n maxDup maxDist => rfl, ?_, ?_⟩
  · intro fs l n maxDup maxDist hall
    have hflat : l.flatMap (contrib fs) = [] := by
      induction l with
      | nil => rfl
      | cons p rest ih =>
        rw [List.flatMap_cons, contrib_nil fs p (hall p (by simp)),
          ih (fun x hx => hall x (by simp [hx]))]
        rfl
    simp only [findDuplicateImages, computePaths, hflat]
    rfl
  · intro fs d files n maxDup maxDist hrd hfil
    simp only [findDuplicateImages, computePaths, hrd, hfil]
    rfl

/-- Witness for C9: a list of a missing path and an existing text file, and
the image-free directory `e` of the fixture. -/
theorem empty_input_law_witness :
    findDuplicateImages fsA (.inr ["x.txt", "nope.png"]) 4 100 5 = .ok [] ∧
    findDuplicateImages fsA (.inl "e") 4 100 5 = .ok [] :=
  ⟨empty_input_law.2.1 fsA ["x.txt", "nope.png"] 4 100 5 (by decide),
   empty_input_law.2.2 fsA "e" ["notes.txt"] 4 100 5 rfl (by decide)⟩

/-- C6: error handling of group resolution — if, with the path collection
and the hashing phase succeeding, some grouped image path passes the
existence check but its metadata read fails, the whole call fails with an
error; and conversely the call's result never changes merely because the
input array contains a non-existent path or an existing non-directory
non-image path (such entries are silently excluded). -/
theorem metadata_failure_fatal :
    (∀ (fs : FS) (source : String ⊕ List String) (hashSize maxDup maxDist : Nat)
      (paths : List String) (hashes : List (List Nat)) (f : String),
      computePaths fs source = .ok paths →
      mapLimit (hashFile fs hashSize) 1 paths = .ok hashes →
      f ∈ ((assemble hashes maxDup maxDist).map fun g =>
        g.map fun i => paths.getD i "").flatten →
      fs.zexists f = true → fs.meta f = none →
      ∃ e, findDuplicateImages fs source hashSize maxDup maxDist = .error e) ∧
    (∀ (fs : FS) (xs ys : List String) (p : String) (hashSize maxDup maxDist : Nat),
      fs.zexists p = false ∨ (fs.isDir p = false ∧ isImageFile p = false) →
      findDuplicateImages fs (.inr (xs ++ p :: ys)) hashSize maxDup maxDist =
        findDuplicateImages fs (.inr (xs ++ ys)) hashSize maxDup maxDist) := by
  constructor
  · intro fs source n maxDup maxDist paths hashes f hp hh hf hex hme
    obtain ⟨e, he⟩ := resolveGroups_error fs
      ((assemble hashes maxDup maxDist).map fun g => g.map fun i => paths.getD i "")
      f hf hex hme
    refine ⟨e, ?_⟩
    simp only [findDuplicateImages, hp, hh, he]
  · intro fs xs ys p n maxDup maxDist hskip
    have hflat : (xs ++ p :: ys).flatMap (contrib fs) = (xs ++ ys).flatMap (contrib fs) := by
      rw [List.flatMap_append, List.flatMap_append, List.flatMap_cons,
        contrib_nil fs p hskip, List.nil_append]
    simp only [findDuplicateImages, computePaths, hflat]

/-- Witness for C6: with the fixture whose `d/a.png` metadata read fails,
the grouped run aborts with an error; and inserting the missing path
`x.txt` into an input array leaves the result unchanged. -/
theorem metadata_failure_fatal_witness :
    (∃ e, findDuplicateImages fsMetaFail (.inl "d") 4 100 5 = .error e) ∧
    findDuplicateImages fsA (.inr ["d", "x.txt"]) 4 100 5 =
      findDuplicateImages fsA (.inr ["d"]) 4 100 5 :=
  ⟨metadata_failure_fatal.1 fsMetaFail (.inl "d") 4 100 5 ["d/a.png", "d/b.png"]
      [[0, 0], [0, 0]] "d/a.png" rfl rfl (by decide) (by decide) (by decide),
   metadata_failure_fatal.2 fsA ["d"] [] "x.txt" 4 100 5 (Or.inl (by decide))⟩

end ImgDup

namespace ImgDup

/-- C5: within every output group, `width * height` is non-increasing from
the first to the last member, and any two members with equal pixel count
appear in ascending order of filename (the basename, compared with the
ordinal string comparison `strLe` that models `localeCompare` as the spec
reads it). -/
theorem group_sort_invariant (fs : FS) (source : String ⊕ List String)
    (hashSize maxDup maxDist : Nat) (res : List (List Img))
    (h : findDuplicateImages fs source hashSize maxDup maxDist = .ok res) :
    ∀ g ∈ res, List.Pairwise (fun a b : Img =>
      b.width * b.height ≤ a.width * a.height ∧
      (a.width * a.height = b.width * b.height →
        strLe (basename a.path) (basename b.path) = true)) g := by
  cases hp : computePaths fs source with
  | error e => simp only [findDuplicateImages, hp] at h; exact absurd h (by simp)
  | ok paths =>
    simp only [findDuplicateImages, hp] at h
    cases hh : mapLimit (hashFile fs hashSize) 1 paths with
    | error e => simp only [hh] at h; exact absurd h (by simp)
    | ok hashes =>
      simp only [hh] at h
      intro g hg
      obtain ⟨l, rfl⟩ := resolveGroups_sorted_shape fs _ res h g hg
      haveI : IsTotal Img imgR := ⟨imgLe_total⟩
      haveI : IsTrans Img imgR := ⟨imgLe_trans⟩
      have hs : List.Sorted imgR (sortGroup l) := List.sorted_insertionSort imgR l
      refine List.Pairwise.imp ?_ hs
      intro a b hab
      rcases imgLe_key hab with hlt | ⟨heq, hstr⟩
      · exact ⟨le_of_lt hlt, fun he => absurd he (by omega)⟩
      · exact ⟨le_of_eq heq.symm, fun _ => hstr⟩

/-- Witness for C5: the fixture group where the lower-resolution image was
discovered first is returned sorted highest-resolution first. -/
theorem group_sort_invariant_witness :
    List.Pairwise (fun a b : Img =>
      b.width * b.height ≤ a.width * a.height ∧
      (a.width * a.height = b.width * b.height →
        strLe (basename a.path) (basename b.path) = true))
      [⟨"d/b.png", 2, 2⟩, ⟨"d/a.png", 1, 1⟩] :=
  group_sort_invariant fsRes (.inl "d") 4 100 5
    [[⟨"d/b.png", 2, 2⟩, ⟨"d/a.png", 1, 1⟩]] rfl
    [⟨"d/b.png", 2, 2⟩, ⟨"d/a.png", 1, 1⟩] (by decide)

/-- C1 counterexample: when the same file is given both explicitly and via
its containing directory, the hashed path list holds the path twice, the
two copies hash identically, and the resulting group contains the same
path twice — the multiset of paths across the output groups has a
duplicate. -/
theorem partition_counterexample :
    findDuplicateImages fsA (.inr ["d", "d/a.png"]) 4 100 5 =
      .ok [[⟨"d/a.png", 2, 3⟩, ⟨"d/a.png", 2, 3⟩, ⟨"d/b.png", 2, 3⟩]] ∧
    ¬ ((([[⟨"d/a.png", 2, 3⟩, ⟨"d/a.png", 2, 3⟩, ⟨"d/b.png", 2, 3⟩]] :
      List (List Img)).flatten.map Img.path).Nodup) :=
  ⟨rfl, by decide⟩

/-- C1 (amended): the grouping pass never places an index of the hashed
list into two groups, so whenever the collected, sorted path list is
duplicate-free (in particular whenever no file is supplied both explicitly
and via its directory), the multiset of image paths across all output
groups contains no duplicates: no path appears in two groups nor twice
within one group. -/
theorem duplicate_free_partition (fs : FS) (source : String ⊕ List String)
    (hashSize maxDup maxDist : Nat) (paths : List String) (res : List (List Img))
    (hp : computePaths fs source = .ok paths)
    (hnd : paths.Nodup)
    (hr : findDuplicateImages fs source hashSize maxDup maxDist = .ok res) :
    (res.flatten.map Img.path).Nodup := by
  simp only [findDuplicateImages, hp] at hr
  cases hh : mapLimit (hashFile fs hashSize) 1 paths with
  | error e => simp only [hh] at hr; exact absurd hr (by simp)
  | ok hashes =>
    simp only [hh] at hr
    rw [mapLimit_eq_exceptMapAll _ _ (by decide)] at hh
    have hlen : hashes.length = paths.length := (exceptMapAll_forall₂ _ _ _ hh).length_eq.symm
    have hinv := assemble_inv hashes maxDup maxDist
    apply resolveGroups_nodup fs _ res ?_ hr
    have hflat : ((assemble hashes maxDup maxDist).map fun g =>
        g.map fun i => paths.getD i "").flatten
        = (assemble hashes maxDup maxDist).flatten.map fun i => paths.getD i "" :=
      (List.map_flatten _ _).symm
    rw [hflat]
    have hmem : ∀ j ∈ (assemble hashes maxDup maxDist).flatten, j < paths.length := by
      intro j hj
      obtain ⟨g, hg, hjg⟩ := List.mem_flatten.mp hj
      have := (hinv.2 g hg).2.2 j hjg
      omega
    refine (List.nodup_map_iff_inj_on hinv.1).mpr ?_
    intro x hx y hy hxy
    have hxlt := hmem x hx
    have hylt := hmem y hy
    rw [List.getD_eq_getElem paths "" hxlt, List.getD_eq_getElem paths "" hylt] at hxy
    exact (List.Nodup.getElem_inj_iff hnd).mp hxy

/-- Witness for C1 (amended): the duplicate-free fixture run produces a
group list whose paths are pairwise distinct. -/
theorem duplicate_free_partition_witness :
    (([[⟨"d/a.png", 2, 3⟩, ⟨"d/b.png", 2, 3⟩]] :
      List (List Img)).flatten.map Img.path).Nodup :=
  duplicate_free_partition fsA (.inl "d") 4 100 5 ["d/a.png", "d/b.png"]
    [[⟨"d/a.png", 2, 3⟩, ⟨"d/b.png", 2, 3⟩]] rfl (by decide) rfl

/-- C2 counterexample: with `maxDuplicates = 1` the truncation
`duplicatesIdx.slice(0, maxDuplicates)` cuts a discovered pair down to one
entry, so a singleton group is emitted, violating the lower bound `2`. -/
theorem group_size_counterexample :
    findDuplicateImages fsA (.inl "d") 4 1 5 = .ok [[⟨"d/a.png", 2, 3⟩]] ∧
    ¬ (2 ≤ ([⟨"d/a.png", 2, 3⟩] : List Img).length) :=
  ⟨rfl, by decide⟩

theorem fsA_consistent : ∀ f m, (fsA.pixels f m).isSome → fsA.zexists f = true := by
  intro f m h
  change (if (f == "d/a.png" || f == "d/b.png") then some zeros20 else none).isSome = true at h
  change (f == "d" || f == "d/a.png" || f == "d/b.png" || f == "e") = true
  cases hc : (f == "d/a.png" || f == "d/b.png")
  · rw [hc] at h; simp at h
  · have hor : f = "d/a.png" ∨ f = "d/b.png" := by simpa using hc
    rcases hor with rfl | rfl <;> decide

/-- C2 (amended): for every filesystem snapshot consistent in that a
decodable image exists, and every configuration with `maxDuplicates ≥ 2`,
every group in a successful output of `findDuplicateImages` has between 2
and `maxDuplicates` members.  (For `maxDuplicates = 1` the code emits
singleton groups, as the counterexample shows, so the bound `2 ≤ |group|`
requires `maxDuplicates ≥ 2`.) -/
theorem group_size_bounds (fs : FS) (source : String ⊕ List String)
    (hashSize maxDup maxDist : Nat) (res : List (List Img))
    (hcons : ∀ f m, (fs.pixels f m).isSome → fs.zexists f = true)
    (hmd : 2 ≤ maxDup)
    (hr : findDuplicateImages fs source hashSize maxDup maxDist = .ok res) :
    ∀ g ∈ res, 2 ≤ g.length ∧ g.length ≤ maxDup := by
  cases hp : computePaths fs source with
  | error e => simp only [findDuplicateImages, hp] at hr; exact absurd hr (by simp)
  | ok paths =>
    simp only [findDuplicateImages, hp] at hr
    cases hh : mapLimit (hashFile fs hashSize) 1 paths with
    | error e => simp only [hh] at hr; exact absurd hr (by simp)
    | ok hashes =>
      simp only [hh] at hr
      rw [mapLimit_eq_exceptMapAll _ _ (by decide)] at hh
      have hlen : hashes.length = paths.length :=
        (exceptMapAll_forall₂ _ _ _ hh).length_eq.symm
      have hallok := exceptMapAll_mem_ok _ _ _ hh
      have hexists : ∀ p ∈ paths, fs.zexists p = true := by
        intro p hp'
        obtain ⟨b, hb⟩ := hallok p hp'
        unfold hashFile at hb
        cases hpx : fs.pixels p hashSize with
        | none => rw [hpx] at hb; exact absurd hb (by simp)
        | some buf => exact hcons p hashSize (by rw [hpx]; rfl)
      have hinv := assemble_inv hashes maxDup maxDist
      apply resolveGroups_length_bounds fs maxDup _ res ?_ hr
      intro pg hpg
      obtain ⟨ig, hig, rfl⟩ := List.mem_map.mp hpg
      have hbounds := hinv.2 ig hig
      refine ⟨?_, ?_, ?_⟩
      · intro f hf
        obtain ⟨i, hi, rfl⟩ := List.mem_map.mp hf
        have hilt : i < paths.length := by
          have := hbounds.2.2 i hi; omega
        apply hexists
        rw [List.getD_eq_getElem paths "" hilt]
        exact List.getElem_mem hilt
      · rw [List.length_map]; exact hbounds.1 hmd
      · rw [List.length_map]; exact hbounds.2.1

/-- Witness for C2 (amended): the fixture pair is returned as one group of
size 2 with `maxDuplicates = 100`. -/
theorem group_size_bounds_witness :
    2 ≤ ([⟨"d/a.png", 2, 3⟩, ⟨"d/b.png", 2, 3⟩] : List Img).length ∧
    ([⟨"d/a.png", 2, 3⟩, ⟨"d/b.png", 2, 3⟩] : List Img).length ≤ 100 :=
  group_size_bounds fsA (.inl "d") 4 100 5 [[⟨"d/a.png", 2, 3⟩, ⟨"d/b.png", 2, 3⟩]]
    fsA_consistent (by decide) rfl [⟨"d/a.png", 2, 3⟩, ⟨"d/b.png", 2, 3⟩] (by decide)

end ImgDup
